import Mathlib

/-!
Verification of the cinnabar revlog reader against its specification.

This file is a shallow embedding of the Rust sources (`src/patch.rs`,
`src/revlog.rs`, `src/util.rs`) in Lean 4:

* byte buffers are `List Nat` (each element a byte value);
* machine integers are `Nat`/`Int`; i32/u64 decoding from big-endian
  bytes is explicit, two's complement handled with `Int`;
* a Rust function that can panic (a failed `assert!`, `unwrap()`, or an
  out-of-bounds rope slice) is embedded with an `Option`/outcome type in
  which the panic is a distinguished result distinct from both normal
  return and a returned `Err`; the `expect!` macro of `util.rs`, which
  returns an `Err` to the caller, is embedded as an explicit error
  result;
* loops are embedded as fuel-indexed structural recursions; the fuel
  supplied by the wrappers (input length + 1) strictly dominates the
  number of iterations the Rust loop can perform, every iteration
  consuming at least one input byte or visiting a fresh offset.

The SHA-1 node-id verifier described by the specification does not
appear anywhere under `src/`; its definitions below are modelled from
the specification text and are marked as such.
-/

/-! ## Patch engine (`src/patch.rs`)

The Rust function is

  pub fn apply(base: Vec<u8>, patches: Vec<Vec<u8>>) -> Vec<u8>

It returns a plain byte vector: there is no error channel at all.  Any
malformed input aborts the process through `unwrap()` (truncated reads
in `decode_header`/`read_slice`) or through the bounds assertions of the
`bytes` rope (`slice`, `slice_from`).  The embedding returns
`Option (List Nat)`, with `none` standing for such a panic.  Each loop
iteration of the Rust code reads a 12-byte header (three big-endian
u32 values `a`, `b`, `c`), reads `c` data bytes, appends
`buf[last..a]` and the data to the output, and sets `last := b`; after
the loop the tail `buf[last..]` is appended unless `last = buf.len()`.
-/

namespace Patch

/-- Fuel-indexed embedding of the `while cur.position() != patch_len`
loop inside `apply`.  The first list argument after the fuel mirrors the
rope `buf` (the buffer as it stood at the start of the current patch
stream), `last` the cursor into `buf`, `next` the output rope under
construction, and the final argument the unread remainder of the patch
stream.  A 12-byte header that does not fit, data shorter than `c`, a
slice with `last > a` or `a > buf.len()`, or a final `last > buf.len()`
all model the corresponding Rust panic as `none`.  The fuel only
decreases on a recursive call, and every recursive call consumes twelve
header bytes, so any fuel larger than the stream length is enough. -/
def applyStreamF (buf : List Nat) : Nat → Nat → List Nat → List Nat → Option (List Nat)
  | _, last, next, [] =>
      if last = buf.length then some next
      else if last ≤ buf.length then some (next ++ buf.drop last)
      else none
  | fuel + 1, last, next, b0 :: b1 :: b2 :: b3 :: b4 :: b5 :: b6 :: b7 :: b8 :: b9 :: b10 :: b11 :: rest =>
      let a := ((b0 * 256 + b1) * 256 + b2) * 256 + b3
      let b := ((b4 * 256 + b5) * 256 + b6) * 256 + b7
      let c := ((b8 * 256 + b9) * 256 + b10) * 256 + b11
      if c ≤ rest.length then
        if last ≤ a ∧ a ≤ buf.length then
          applyStreamF buf fuel b (next ++ ((buf.take a).drop last) ++ rest.take c) (rest.drop c)
        else none
      else none
  | _, _, _, _ => none

/-- One patch stream applied to one buffer: the body of the
`for patch in patches` loop of `apply`, starting with `last = 0` and an
empty output rope. -/
def applyStream (buf : List Nat) (p : List Nat) : Option (List Nat) :=
  applyStreamF buf (p.length + 1) 0 [] p

/-- Embedding of `patch::apply`: the base buffer is threaded through the
patch streams in order.  `none` models a panic inside any stream. -/
def apply : List Nat → List (List Nat) → Option (List Nat)
  | buf, [] => some buf
  | buf, p :: ps =>
      match applyStream buf p with
      | none => none
      | some buf2 => apply buf2 ps

/-- Parser for a patch stream into its hunks `(a, b, data)`, with
`c = data.length`.  It reads exactly the bytes `applyStreamF` reads, in
the same order, and fails on exactly the streams whose header or data
reads would panic. -/
def parseHunksF : Nat → List Nat → Option (List (Nat × Nat × List Nat))
  | _, [] => some []
  | fuel + 1, b0 :: b1 :: b2 :: b3 :: b4 :: b5 :: b6 :: b7 :: b8 :: b9 :: b10 :: b11 :: rest =>
      let a := ((b0 * 256 + b1) * 256 + b2) * 256 + b3
      let b := ((b4 * 256 + b5) * 256 + b6) * 256 + b7
      let c := ((b8 * 256 + b9) * 256 + b10) * 256 + b11
      if c ≤ rest.length then
        match parseHunksF fuel (rest.drop c) with
        | some hs => some ((a, b, rest.take c) :: hs)
        | none => none
      else none
  | _, _ => none

/-- Wrapper supplying sufficient fuel to `parseHunksF`. -/
def parseHunks (p : List Nat) : Option (List (Nat × Nat × List Nat)) :=
  parseHunksF (p.length + 1) p

/-- Hunk application on already-parsed hunks; used to state and prove
properties of `applyStreamF` by ordinary list induction. -/
def applyParsed (buf : List Nat) : Nat → List Nat → List (Nat × Nat × List Nat) → Option (List Nat)
  | last, next, [] =>
      if last = buf.length then some next
      else if last ≤ buf.length then some (next ++ buf.drop last)
      else none
  | last, next, (a, b, piece) :: hs =>
      if last ≤ a ∧ a ≤ buf.length then
        applyParsed buf b (next ++ ((buf.take a).drop last) ++ piece) hs
      else none

/-- Well-formedness of a hunk list against a source buffer of length
`srcLen`, threading the cursor: hunks are monotone and non-overlapping
(`cursor ≤ a`), each hunk has `a ≤ b` and `b ≤ srcLen`, and the final
cursor is within the buffer. -/
def hunksWF (srcLen : Nat) : Nat → List (Nat × Nat × List Nat) → Bool
  | cursor, [] => decide (cursor ≤ srcLen)
  | cursor, (a, b, _) :: hs =>
      decide (cursor ≤ a) && decide (a ≤ b) && decide (b ≤ srcLen) && hunksWF srcLen b hs

/-- Total number of bytes deleted by a hunk list, `Σ (bᵢ − aᵢ)`, as an
integer. -/
def sumDel (hs : List (Nat × Nat × List Nat)) : Int :=
  (hs.map (fun h => (h.2.1 : Int) - (h.1 : Int))).sum

/-- Total number of bytes inserted by a hunk list, `Σ cᵢ`. -/
def sumIns (hs : List (Nat × Nat × List Nat)) : Int :=
  (hs.map (fun h => (h.2.2.length : Int))).sum

/-- Big-endian 4-byte encoding of a u32 value, for building concrete
patch streams. -/
def be4 (n : Nat) : List Nat :=
  [n / 16777216 % 256, n / 65536 % 256, n / 256 % 256, n % 256]

/-- Concrete hunk serialisation: 12-byte header followed by the data. -/
def hunkBytes (a b : Nat) (data : List Nat) : List Nat :=
  be4 a ++ be4 b ++ be4 data.length ++ data

end Patch

/-! ## Revlog index records (`src/revlog.rs`, `src/util.rs`)

An index record (`RevlogChunk`) is 64 bytes: a big-endian u64
`offset_flags`, six big-endian i32 fields, and a 32-byte `c_node_id`
area of which the first 20 bytes are the node id and the last 12 must
be zero.  `MappedData::extract_value` and `extract_slice` bounds-check
with `assert!`, so a violated bound is a panic, not a returned error;
the `expect!` checks of `index_entry_at_byte` return an `Err`.
-/

/-- Big-endian value of the `n` bytes of `l` starting at offset `off`
(missing bytes read as zero; all uses are bounds-checked first). -/
def beAt (l : List Nat) (off n : Nat) : Nat :=
  ((l.drop off).take n).foldl (fun acc b => acc * 256 + b) 0

/-- Two's-complement reading of a u32 word as a Rust i32. -/
def i32FromU32 (w : Nat) : Int :=
  if w < 2147483648 then (w : Int) else (w : Int) - 4294967296

/-- Rust `x as usize` for an i32 value `x` on a 64-bit target. -/
def usizeFromI32 (x : Int) : Nat :=
  if x < 0 then (x + 18446744073709551616).toNat else x.toNat

/-- Decoded fields of a 64-byte RevlogNG index record, mirroring
`RevlogChunk` after its big-endian accessors have been applied.
`c_node_id` holds the full 32-byte area; the accessor below selects the
leading 20 bytes as in `RevlogChunk::c_node_id`. -/
structure RevlogChunk where
  offset_flags : Nat
  comp_len : Int
  uncomp_len : Int
  base_rev : Int
  link_rev : Int
  parent_1 : Int
  parent_2 : Int
  c_node_id : List Nat
deriving DecidableEq

/-- Reading of the record stored at byte offset `off` of an index file,
mirroring `extract_value::<RevlogChunk>` plus the accessors. -/
def readChunk (ix : List Nat) (off : Nat) : RevlogChunk :=
  { offset_flags := beAt ix off 8
  , comp_len := i32FromU32 (beAt ix (off + 8) 4)
  , uncomp_len := i32FromU32 (beAt ix (off + 12) 4)
  , base_rev := i32FromU32 (beAt ix (off + 16) 4)
  , link_rev := i32FromU32 (beAt ix (off + 20) 4)
  , parent_1 := i32FromU32 (beAt ix (off + 24) 4)
  , parent_2 := i32FromU32 (beAt ix (off + 28) 4)
  , c_node_id := (ix.drop (off + 32)).take 32 }

/-- Embedding of `RevlogChunk::offset`: the decoded `offset_flags` word
shifted right by 16 bits, that is, its high 48 bits. -/
def RevlogChunk.offset (c : RevlogChunk) : Nat :=
  c.offset_flags >>> 16

/-- Embedding of `RevlogChunk::c_node_id`: the leading 20 bytes. -/
def RevlogChunk.node_id (c : RevlogChunk) : List Nat :=
  c.c_node_id.take 20

/-- Embedding of `RevlogEntry::offset`: record 0 (byte offset 0)
reports 0 regardless of its stored `offset_flags`; every other record
reports the decoded offset.  The function does not consult the storage
mode.  The same formula is inlined in `index_entry_at_byte` to locate
the payload in the `.d` file in separate mode. -/
def entryOffset (byte_offset : Int) (c : RevlogChunk) : Nat :=
  if byte_offset = 0 then 0 else c.offset

/-! ## Inline scan and jump table (`Revlog::init`, `Revlog::iter`)

For an inline revlog, `init` iterates the whole file from byte offset 0
and records each entry's byte offset in `offset_table`.  Each step
builds the entry at the current offset (`index_entry_at_byte`) and then
advances by `64 + comp_len` (`inline_advance`); iteration stops cleanly
exactly when the next offset equals the index file length.  Entry
construction can abort with a panic (a violated `assert!` bound in
`extract_value`/`extract_slice`) or fail with a returned error (the
`expect!` checks on the node-id padding and the payload framing byte).
-/

/-- Outcome of constructing one entry at a byte offset. -/
inductive EOut where
  | ok
  | err
  | panic
deriving DecidableEq

/-- Outcome of the inline scan: a successful jump table, a returned
error, a panic, or divergence (the Rust loop never terminating). -/
inductive SOut where
  | ok (t : List Int)
  | err
  | panic
  | diverge
deriving DecidableEq

/-- Outcome of `Revlog::index`. -/
inductive IOut where
  | ok (byte_offset : Int) (revno : Int)
  | err
  | panic
deriving DecidableEq

/-- Decoded `comp_len` of the record at byte offset `off`. -/
def compLenAt (ix : List Nat) (off : Int) : Int :=
  i32FromU32 (beAt ix (off.toNat + 8) 4)

/-- Embedding of `index_entry_at_byte` for the inline case, keeping
only the outcome.  In order: `extract_value` asserts
`0 ≤ off ∧ off + 64 ≤ len` (panic); `extract_slice` asserts
`off + 64 + comp_len ≤ len` — for an i32 `comp_len` cast to usize and
back to isize this is the assertion the Rust code evaluates — (panic);
the node-id padding `c_node_id[20..32] == 0` is checked with `expect!`
(error); a nonempty payload must start with 0, `'u'` (117) or `'x'`
(120), checked with `expect!` (error). -/
def mkEntry (ix : List Nat) (off : Int) : EOut :=
  if ¬ (0 ≤ off ∧ off + 64 ≤ (ix.length : Int)) then .panic
  else
    let c := compLenAt ix off
    if ¬ (off + 64 + c ≤ (ix.length : Int)) then .panic
    else if ¬ ((ix.drop (off.toNat + 52)).take 12 = List.replicate 12 0) then .err
    else
      match (ix.drop (off.toNat + 64)).take (usizeFromI32 c) with
      | [] => .ok
      | d :: _ => if d = 0 ∨ d = 117 ∨ d = 120 then .ok else .err

/-- Fuel-indexed embedding of the `init` scan loop over an inline
index: build the entry at `off`, record `off`, stop if
`off + 64 + comp_len` equals the file length, otherwise continue
there.  Exhausted fuel models a non-terminating Rust loop. -/
def scanFrom (ix : List Nat) : Nat → Int → SOut
  | 0, _ => .diverge
  | fuel + 1, off =>
      match mkEntry ix off with
      | .panic => .panic
      | .err => .err
      | .ok =>
          if off + 64 + compLenAt ix off = (ix.length : Int) then .ok [off]
          else
            match scanFrom ix fuel (off + 64 + compLenAt ix off) with
            | .ok t => .ok (off :: t)
            | r => r

/-- The open-time scan of an inline revlog, started at offset 0.  The
fuel `ix.length + 1` dominates any terminating run: a terminating run
visits pairwise distinct offsets, each satisfying
`0 ≤ off ∧ off + 64 ≤ ix.length`. -/
def inlineScan (ix : List Nat) : SOut :=
  scanFrom ix (ix.length + 1) 0

/-- Flag word of an index file: the high 32 bits of record 0's
`offset_flags`, that is, the big-endian value of its first 4 bytes;
compare `(first_chunk.offset_flags() >> 32) as u32` in `Revlog::open`.
Bit 0 is `REVLOGNG`, bit 16 is `REVLOGNGINLINEDATA`, bit 17 is
`REVLOGGENERALDELTA`. -/
def revlogFlags (ix : List Nat) : Nat :=
  beAt ix 0 4

/-- Characterisation of a clean inline scan from a given offset: every
visited record constructs without error, each step advances by
`64 + comp_len`, and the final step lands exactly on the file length.
The list collects the visited offsets. -/
inductive ScansTo (ix : List Nat) : Int → List Int → Prop where
  | last (off : Int) :
      mkEntry ix off = .ok →
      off + 64 + compLenAt ix off = (ix.length : Int) →
      ScansTo ix off [off]
  | step (off : Int) (t : List Int) :
      mkEntry ix off = .ok →
      off + 64 + compLenAt ix off ≠ (ix.length : Int) →
      ScansTo ix (off + 64 + compLenAt ix off) t →
      ScansTo ix off (off :: t)

/-- Contract model of `Vec::binary_search` as used by
`revno_from_offset`: on the strictly increasing, duplicate-free offset
tables it is applied to, the standard library routine returns `Ok i`
exactly for the index `i` holding the probe and `Err _` when the probe
is absent; the model returns the first matching index. -/
def binarySearchModel (t : List Int) (x : Int) : Option Nat :=
  match t with
  | [] => none
  | y :: ys =>
      if y = x then some 0 else (binarySearchModel ys x).map (· + 1)

/-- Embedding of `Revlog::revno_from_offset` for a fully constructed
inline revlog with jump table `t`: a found index is the revno, a miss
is a returned error (`none`). -/
def revnoFromOffset (t : List Int) (off : Int) : Option Int :=
  (binarySearchModel t off).map (fun i => (i : Int))

/-- Embedding of `Revlog::index` for an inline revlog with jump table
`t`: bounds-check the revno against the table (`expect!`, error), look
up the byte offset, and construct the entry there with the supplied
revno. -/
def indexM (ix : List Nat) (t : List Int) (i : Int) : IOut :=
  if ¬ (0 ≤ i ∧ i < (t.length : Int)) then .err
  else
    match mkEntry ix (t.getD i.toNat 0) with
    | .ok => .ok (t.getD i.toNat 0) i
    | .err => .err
    | .panic => .panic

/-! ## Delta chains (`RevlogEntry::base_rev`, `DeltaChain`)

The delta-chain iterator yields the compressed payload of the current
entry, computes `next_rev = base_rev()` (which in general-delta mode
reports −1 when the record's `base_rev` equals the entry's own revno),
stops when `next_rev` is −1 or equals the current revno, and otherwise
continues at `index(next_rev)`.  The revlog is abstracted to the fields
the chain walk reads: per record its `base_rev`, node id and payload,
plus the `generaldelta` flag.
-/

/-- Record fields of one revision as seen by the chain walk and the
parent lookups. -/
structure RecordM where
  base_rev : Int
  node_id : List Nat
  payload : List Nat
deriving DecidableEq

/-- A revlog abstracted to its decoded records and its delta scheme. -/
structure RevlogM where
  records : List RecordM
  generaldelta : Bool
deriving DecidableEq

/-- Record lookup by revision number, mirroring the bounds checks of
`Revlog::index` (a revno outside `[0, len)` is an error, `none`). -/
def lookupRec (rl : RevlogM) (i : Int) : Option RecordM :=
  if 0 ≤ i then rl.records.get? i.toNat else none

/-- Embedding of `RevlogEntry::base_rev`: in general-delta mode a
record whose `base_rev` equals its own revno reports −1; otherwise the
stored `base_rev` is reported unchanged. -/
def entryBaseRev (rl : RevlogM) (revno : Int) (base : Int) : Int :=
  if base = revno ∧ rl.generaldelta then -1 else base

/-- Fuel-indexed embedding of the `DeltaChain` iterator, collecting the
yielded compressed payloads.  `none` models a walk that fails a lookup
(`index(next_rev).unwrap()`) or never terminates (fuel exhaustion);
for any revlog whose `base_rev` fields satisfy
`-1 ≤ base_rev ≤ revno`, fuel `revno + 1` is enough. -/
def deltaChainFuel (rl : RevlogM) : Nat → Int → Option (List (List Nat))
  | 0, _ => none
  | fuel + 1, revno =>
      match lookupRec rl revno with
      | none => none
      | some rec =>
          let next := entryBaseRev rl revno rec.base_rev
          if next = -1 ∨ next = revno then some [rec.payload]
          else (deltaChainFuel rl fuel next).map (fun t => rec.payload :: t)

/-- Embedding of `RevlogEntry::parent_1_id` (and symmetrically
`parent_2_id`): a −1 parent slot yields the 20-byte null id, any other
slot the parent record's node id. -/
def parentIdM (rl : RevlogM) (p : Int) : Option (List Nat) :=
  if p = -1 then some (List.replicate 20 0)
  else (lookupRec rl p).map (fun r => r.node_id)

/-! ## Node-id verifier

No SHA-1 computation appears anywhere under `src/`; the verifier is
specified in §4.7 of the specification only.  The definitions in this
section are therefore modelled from the specification text.  SHA-1
itself is implemented from its standard description; all word
arithmetic is `Nat` reduced modulo `2^32`.
-/

/-- Left rotation of a 32-bit word. -/
def rotl32 (k x : Nat) : Nat :=
  ((x <<< k) ||| (x >>> (32 - k))) % 4294967296

/-- Big-endian words of a byte list, four bytes per word. -/
def beWords : List Nat → List Nat
  | b0 :: b1 :: b2 :: b3 :: r => (((b0 * 256 + b1) * 256 + b2) * 256 + b3) :: beWords r
  | _ => []

/-- Message-schedule extension: append `k` further words, each the
rotation by one of the XOR of the words 3, 8, 14 and 16 positions
back. -/
def sha1Extend (ws : List Nat) : Nat → List Nat
  | 0 => ws
  | k + 1 =>
      sha1Extend
        (ws ++ [rotl32 1 ((((ws.getD (ws.length - 3) 0) ^^^ (ws.getD (ws.length - 8) 0)) ^^^
          (ws.getD (ws.length - 14) 0)) ^^^ (ws.getD (ws.length - 16) 0))]) k

/-- Round function of SHA-1 for round `t`. -/
def sha1F (t b c d : Nat) : Nat :=
  if t < 20 then (b &&& c) ||| ((b ^^^ 4294967295) &&& d)
  else if t < 40 then (b ^^^ c) ^^^ d
  else if t < 60 then ((b &&& c) ||| (b &&& d)) ||| (c &&& d)
  else (b ^^^ c) ^^^ d

/-- Round constant of SHA-1 for round `t`. -/
def sha1K (t : Nat) : Nat :=
  if t < 20 then 1518500249
  else if t < 40 then 1859775393
  else if t < 60 then 2400959708
  else 3395469782

/-- Compression of one 64-byte chunk into the running state. -/
def sha1Chunk (h : Nat × Nat × Nat × Nat × Nat) (chunk : List Nat) : Nat × Nat × Nat × Nat × Nat :=
  let ws := sha1Extend (beWords chunk) 64
  let st := (List.zip (List.range 80) ws).foldl
    (fun (st : Nat × Nat × Nat × Nat × Nat) (tw : Nat × Nat) =>
      let t := ((rotl32 5 st.1 + sha1F tw.1 st.2.1 st.2.2.1 st.2.2.2.1) + st.2.2.2.2 + sha1K tw.1 + tw.2) % 4294967296
      (t, st.1, rotl32 30 st.2.1, st.2.2.1, st.2.2.2.1)) h
  ((h.1 + st.1) % 4294967296, (h.2.1 + st.2.1) % 4294967296, (h.2.2.1 + st.2.2.1) % 4294967296,
   (h.2.2.2.1 + st.2.2.2.1) % 4294967296, (h.2.2.2.2 + st.2.2.2.2) % 4294967296)

/-- Fuel-indexed split of a byte list into 64-byte chunks. -/
def chunks64F : Nat → List Nat → List (List Nat)
  | _, [] => []
  | 0, _ :: _ => []
  | fuel + 1, l => l.take 64 :: chunks64F fuel (l.drop 64)

/-- Big-endian 8-byte encoding of a u64 value. -/
def be8 (n : Nat) : List Nat :=
  [n / 72057594037927936 % 256, n / 281474976710656 % 256, n / 1099511627776 % 256,
   n / 4294967296 % 256, n / 16777216 % 256, n / 65536 % 256, n / 256 % 256, n % 256]

/-- Big-endian 4-byte encoding of a 32-bit word. -/
def be4w (n : Nat) : List Nat :=
  [n / 16777216 % 256, n / 65536 % 256, n / 256 % 256, n % 256]

/-- Standard SHA-1 padding: a 0x80 byte, zeros to 56 mod 64, and the
bit length as a big-endian u64. -/
def sha1Pad (msg : List Nat) : List Nat :=
  msg ++ [128] ++ List.replicate ((119 - msg.length % 64) % 64) 0 ++ be8 (msg.length * 8)

/-- SHA-1 digest (20 bytes) of a byte list. -/
def sha1 (msg : List Nat) : List Nat :=
  let p := sha1Pad msg
  let h := (chunks64F (p.length + 1) p).foldl sha1Chunk
    (1732584193, 4023233417, 2562383102, 271733878, 3285377520)
  be4w h.1 ++ be4w h.2.1 ++ be4w h.2.2.1 ++ be4w h.2.2.2.1 ++ be4w h.2.2.2.2

/-- Lexicographic byte-order comparison of two byte lists
(less-or-equal). -/
def lexLe : List Nat → List Nat → Bool
  | [], _ => true
  | _ :: _, [] => false
  | a :: as, b :: bs => if a < b then true else if b < a then false else lexLe as bs

/-- Smaller of two byte lists in lexicographic order. -/
def lexMin (x y : List Nat) : List Nat := if lexLe x y then x else y

/-- Larger of two byte lists in lexicographic order. -/
def lexMax (x y : List Nat) : List Nat := if lexLe x y then y else x

/-- Modelled from the spec: §4.7, the Mercurial node id of a revision —
`sha1(min(p1_id, p2_id) || max(p1_id, p2_id) || fulltext)` with
lexicographic byte ordering of the two 20-byte parent ids.  No such
computation exists under `src/`. -/
def computeNodeId (p1 p2 text : List Nat) : List Nat :=
  sha1 (lexMin p1 p2 ++ lexMax p1 p2 ++ text)

/-- Modelled from the spec: §4.7, the verifier computes the node id
from the parents and the fulltext and compares it against the stored
20-byte id.  No such comparison exists under `src/`. -/
def checkNodeId (stored p1 p2 text : List Nat) : Bool :=
  computeNodeId p1 p2 text = stored

/-- Repeated zero bytes. -/
def zeros (n : Nat) : List Nat := List.replicate n 0

/-- Data-offset computation of `index_entry_at_byte` in separate mode:
record 0 reads its payload at offset 0 of the `.d` file, every other
record at its decoded `offset()`. -/
def dataOffsetSeparate (byte_offset : Int) (c : RevlogChunk) : Int :=
  if byte_offset = 0 then 0 else (c.offset : Int)

/-- A well-formed two-entry inline index file of exactly 133 bytes.
Record 0 starts at offset 0 with flags NG|INLINE and `comp_len = 3`
(payload `u..` at bytes 64..67); record 1 starts at offset 67 with
`comp_len = 2` (payload at bytes 131..133).  The final advance lands
exactly on the file length: 67 + 64 + 2 = 133. -/
def goodInline : List Nat :=
  [0, 1, 0, 1] ++ zeros 4 ++ [0, 0, 0, 3] ++ zeros 52 ++ [117, 0, 0] ++
    zeros 8 ++ [0, 0, 0, 2] ++ zeros 52 ++ [0, 0]

/-- The same file with its last byte missing: the final entry's payload
bound 67 + 64 + 2 = 133 now exceeds the 132-byte length. -/
def goodInlineShort : List Nat := goodInline.take 132

/-- An adversarial 164-byte inline index on which `open()` succeeds
although the resulting jump table is not sorted.  Record 0
(`comp_len = 36`) advances to offset 100; the record at 100 has
`comp_len = −100` (bytes FF FF FF 9C), so the scan advances backwards
to offset 64; the record at 64 (`comp_len = 36`) advances to
64 + 64 + 36 = 164, exactly the file length.  Every visited record
passes the node-padding and framing checks. -/
def wildInline : List Nat :=
  [0, 1, 0, 1] ++ zeros 4 ++ [0, 0, 0, 36] ++ zeros 52 ++
    zeros 8 ++ [0, 0, 0, 36] ++ zeros 32 ++ [255, 255, 255, 156] ++ zeros 52

/-- A separate-mode index pair of records where the record at byte
offset 64 stores `offset_flags = 0x10000`, that is, data offset 1 and
flag bits 0. -/
def maskExample : List Nat :=
  zeros 64 ++ [0, 0, 0, 0, 0, 1, 0, 0] ++ zeros 56

/-- A two-revision revlog for exercising the delta chain: revision 0 is
a fulltext (`base_rev = −1`), revision 1 deltas against it. -/
def rlW : RevlogM :=
  { records := [{ base_rev := -1, node_id := zeros 20, payload := [1] },
                { base_rev := 0, node_id := zeros 20, payload := [2] }]
  , generaldelta := false }

/-! ## Helper lemmas -/

/-- Totality of the lexicographic comparison. -/
theorem lexLe_total : ∀ x y : List Nat, lexLe x y = true ∨ lexLe y x = true := by
  intro x
  induction x with
  | nil => intro y; left; rfl
  | cons a as ih =>
      intro y
      cases y with
      | nil => right; rfl
      | cons b bs =>
          by_cases hab : a < b
          · left; simp [lexLe, hab]
          · by_cases hba : b < a
            · right; simp [lexLe, hba, hab]
            · have hde : a = b := Nat.le_antisymm (Nat.not_lt.mp hba) (Nat.not_lt.mp hab)
              subst hde
              rcases ih bs with h | h
              · left; simpa [lexLe] using h
              · right; simpa [lexLe] using h

/-- Antisymmetry of the lexicographic comparison. -/
theorem lexLe_antisymm : ∀ x y : List Nat, lexLe x y = true → lexLe y x = true → x = y := by
  intro x
  induction x with
  | nil =>
      intro y _ hyx
      cases y with
      | nil => rfl
      | cons b bs => simp [lexLe] at hyx
  | cons a as ih =>
      intro y hxy hyx
      cases y with
      | nil => simp [lexLe] at hxy
      | cons b bs =>
          by_cases hab : a < b
          · simp [lexLe, hab, Nat.not_lt.mpr (Nat.le_of_lt hab), Nat.ne_of_gt hab] at hyx
          · by_cases hba : b < a
            · simp [lexLe, hab, hba] at hxy
            · have hde : a = b := Nat.le_antisymm (Nat.not_lt.mp hba) (Nat.not_lt.mp hab)
              subst hde
              simp only [lexLe, Nat.lt_irrefl, if_false] at hxy hyx
              exact congrArg (a :: ·) (ih bs hxy hyx)

/-- The sorted parent pair does not depend on the order the parents are
presented in. -/
theorem lexMinMax_comm (x y : List Nat) :
    lexMin x y ++ lexMax x y = lexMin y x ++ lexMax y x := by
  unfold lexMin lexMax
  rcases hxy : lexLe x y with _ | _ <;> rcases hyx : lexLe y x with _ | _ <;> simp
  · rcases lexLe_total x y with h | h
    · simp [h] at hxy
    · simp [h] at hyx
  · exact congrArg₂ (· ++ ·) (lexLe_antisymm x y hxy hyx) (lexLe_antisymm y x hyx hxy)

/-! ## Claim theorems -/

/-- C8.  Applying the empty patch stream (no hunks at all) to any
buffer returns the buffer unchanged: `apply(S, [empty]) = S`. -/
theorem c8_empty_patch_identity (S : List Nat) : Patch.apply S [[]] = some S := by
  have h : Patch.applyStream S [] = some S := by
    rcases S with _ | ⟨x, xs⟩
    · rfl
    · simp [Patch.applyStream, Patch.applyStreamF]
  simp [Patch.apply, h]

/-- C9.  The entry whose record sits at byte offset 0 of the index
reports `offset() = 0` whatever its raw `offset_flags` value; the
definition of `entryOffset` consults only the byte offset, never the
storage mode. -/
theorem c9_record_zero_offset (c : RevlogChunk) : entryOffset 0 c = 0 := by
  simp [entryOffset]

/-- C1.  Applying two patch streams in one call equals applying them in
sequence: whenever `apply(S, [P1])` returns `T`, `apply(S, [P1, P2])`
equals `apply(T, [P2])` — each stream's offsets are read against the
buffer as it stood when that stream started.  The second conjunct is
scenario S4: `apply("AAAA", [hunk(0,2,"BB"), hunk(2,4,"C")]) = "BBC"`.  -/
theorem c1_apply_compose_sequence (S T p1 p2 : List Nat)
    (h : Patch.apply S [p1] = some T) :
    Patch.apply S [p1, p2] = Patch.apply T [p2] ∧
    Patch.apply [65, 65, 65, 65]
      [Patch.hunkBytes 0 2 [66, 66], Patch.hunkBytes 2 4 [67]] = some [66, 66, 67] := by
  constructor
  · cases hap : Patch.applyStream S p1 with
    | none => simp [Patch.apply, hap] at h
    | some b =>
        have hb : b = T := by simpa [Patch.apply, hap] using h
        subst hb
        simp [Patch.apply, hap]
  · decide

/-- Witness for C1 at the S4 inputs: the first stream produces "BBAA"
and the composed application agrees with the sequenced one. -/
theorem c1_apply_compose_sequence_witness :
    Patch.apply [65, 65, 65, 65] [Patch.hunkBytes 0 2 [66, 66]] = some [66, 66, 65, 65] ∧
    Patch.apply [65, 65, 65, 65] [Patch.hunkBytes 0 2 [66, 66], Patch.hunkBytes 2 4 [67]] =
      Patch.apply [66, 66, 65, 65] [Patch.hunkBytes 2 4 [67]] :=
  ⟨by decide,
   (c1_apply_compose_sequence [65, 65, 65, 65] [66, 66, 65, 65]
      (Patch.hunkBytes 0 2 [66, 66]) (Patch.hunkBytes 2 4 [67]) (by decide)).1⟩

/-- C7, counterexample.  The claim states that every malformed patch —
in particular a hunk with `a > b` — makes the engine fail with a fatal
`BadPatch` error returned to the caller.  The hunk `(a, b, c) =
(2, 1, 0)` has `a > b`, yet `apply` on "AAAA" returns normally (the
embedding's `some`), producing the five-byte buffer "AAAAA":
no failure of any kind occurs, and the Rust function's return type
`Vec<u8>` has no error channel at all. -/
theorem c7_bad_patch_counterexample :
    Patch.apply [65, 65, 65, 65] [Patch.hunkBytes 2 1 []] = some [65, 65, 65, 65, 65] := by
  decide

/-- C7, amended.  On malformed patch input the engine never returns a
`BadPatch` error (its return type has none): a stream truncated inside
a hunk header, a stream truncated inside its declared data, a hunk with
`b` beyond the buffer, and overlapping (non-monotone) hunks all abort
with a panic (`none` — a failed `unwrap` or rope-slice assertion),
while a hunk with `a > b` whose offsets are within bounds is not
detected at all and returns normally, duplicating `src[b..a]`. -/
theorem c7_malformed_patch_behaviour :
    Patch.apply [65, 65] [[0, 0, 0, 1]] = none ∧
    Patch.apply [65, 65] [[0, 0, 0, 0, 0, 0, 0, 1, 0, 0, 0, 5]] = none ∧
    Patch.apply [65, 65] [Patch.hunkBytes 0 3 []] = none ∧
    Patch.apply [65, 65, 65, 65] [Patch.hunkBytes 0 3 [] ++ Patch.hunkBytes 1 2 []] = none ∧
    Patch.apply [65, 65, 65, 65] [Patch.hunkBytes 2 1 []] = some [65, 65, 65, 65, 65] := by
  refine ⟨by decide, by decide, by decide, by decide, by decide⟩

/-- C2, counterexample.  The claim states the decoded data offset of a
non-zero record is the low 48 bits of `offset_flags`
(`offset_flags & 0x0000_FFFF_FFFF_FFFF`).  The record at byte offset 64
of `maskExample` stores `offset_flags = 0x10000`; the code
(`RevlogChunk::offset`, a right shift by 16) decodes offset 1 and uses
1 to locate the payload in the `.d` file, while the claimed mask gives
65536. -/
theorem c2_offset_mask_counterexample :
    ¬ dataOffsetSeparate 64 (readChunk maskExample 64) =
        (((readChunk maskExample 64).offset_flags &&& 281474976710655 : Nat) : Int) := by
  decide

/-- C2, amended.  For every record other than record 0 the decoded data
offset is `offset_flags >> 16` — the high 48 bits of the big-endian
word, the low 16 bits being the flag field — and in separate mode this
is the offset at which `index_entry_at_byte` reads the payload from the
`.d` file. -/
theorem c2_offset_high48 (c : RevlogChunk) (b : Int) (hb : b ≠ 0) :
    c.offset = c.offset_flags >>> 16 ∧
    dataOffsetSeparate b c = ((c.offset_flags >>> 16 : Nat) : Int) := by
  exact ⟨rfl, by simp [dataOffsetSeparate, hb, RevlogChunk.offset]⟩

/-- Witness for C2 (amended) at the concrete record of `maskExample`:
byte offset 64 is nonzero and the decoded offset is 65536 >> 16 = 1. -/
theorem c2_offset_high48_witness :
    (64 : Int) ≠ 0 ∧
    ((readChunk maskExample 64).offset = (readChunk maskExample 64).offset_flags >>> 16 ∧
      dataOffsetSeparate 64 (readChunk maskExample 64) =
        (((readChunk maskExample 64).offset_flags >>> 16 : Nat) : Int)) :=
  ⟨by decide, c2_offset_high48 (readChunk maskExample 64) 64 (by decide)⟩

/-- C3.  Modelled from the spec (no SHA-1 appears under `src/`): a −1
parent slot contributes the 20-byte null id; the verifier accepts a
stored id exactly when it equals
`sha1(min(p1, p2) || max(p1, p2) || fulltext)` with lexicographic
byte-order min/max; and the computed id does not depend on the order in
which the two parent ids are presented. -/
theorem c3_node_id_verifier (rl : RevlogM) (stored p1 p2 text : List Nat) :
    parentIdM rl (-1) = some (List.replicate 20 0) ∧
    (checkNodeId stored p1 p2 text = true ↔ computeNodeId p1 p2 text = stored) ∧
    computeNodeId p1 p2 text = sha1 (lexMin p1 p2 ++ lexMax p1 p2 ++ text) ∧
    computeNodeId p1 p2 text = computeNodeId p2 p1 text := by
  refine ⟨by simp [parentIdM], by simp [checkNodeId], rfl, ?_⟩
  unfold computeNodeId
  rw [lexMinMax_comm]

/-- Totality and head shape of the delta-chain walk on a revlog whose
records keep `-1 ≤ base_rev ≤ revno`: with fuel exceeding the starting
revno the walk neither runs out of fuel nor fails a lookup, and it
yields the starting entry's payload first. -/
theorem deltaChain_total (rl : RevlogM)
    (hwf : ∀ j : Fin rl.records.length,
      -1 ≤ (rl.records.get j).base_rev ∧ (rl.records.get j).base_rev ≤ (j : Int)) :
    ∀ fuel (revno : Int), 0 ≤ revno → revno.toNat < fuel →
      revno.toNat < rl.records.length →
      ∃ r l, lookupRec rl revno = some r ∧
        deltaChainFuel rl fuel revno = some (r.payload :: l) := by
  intro fuel
  induction fuel with
  | zero => intro revno _ h _; omega
  | succ n ih =>
      intro revno h0 hfuel hlen
      have hlook : lookupRec rl revno = some (rl.records.get ⟨revno.toNat, hlen⟩) := by
        simp [lookupRec, h0, List.get?_eq_get hlen]
      set r := rl.records.get ⟨revno.toNat, hlen⟩ with hr
      have hbounds := hwf ⟨revno.toNat, hlen⟩
      have hcast : ((⟨revno.toNat, hlen⟩ : Fin rl.records.length) : Int) = revno := by
        simp; omega
      rw [hcast, ← hr] at hbounds
      by_cases hstop : entryBaseRev rl revno r.base_rev = -1 ∨
          entryBaseRev rl revno r.base_rev = revno
      · exact ⟨r, [], hlook, by simp [deltaChainFuel, hlook, hstop]⟩
      · push_neg at hstop
        have hbase : entryBaseRev rl revno r.base_rev = r.base_rev := by
          by_cases hc : r.base_rev = revno ∧ rl.generaldelta
          · have hm1 : entryBaseRev rl revno r.base_rev = -1 := by
              simp [entryBaseRev, hc.1, hc.2]
            exact absurd hm1 hstop.1
          · simp [entryBaseRev, hc]
        rw [hbase] at hstop
        have hb0 : 0 ≤ r.base_rev := by
          rcases hbounds with ⟨hb1, _⟩
          omega
        have hblt : r.base_rev < revno := by
          rcases hbounds with ⟨_, hb2⟩
          omega
        obtain ⟨r', l', hl', hd'⟩ := ih r.base_rev hb0 (by omega) (by omega)
        refine ⟨r, r'.payload :: l', hlook, ?_⟩
        have hnostop : ¬ (entryBaseRev rl revno r.base_rev = -1 ∨
            entryBaseRev rl revno r.base_rev = revno) := by
          rw [hbase]
          push_neg
          exact hstop
        simp only [deltaChainFuel, hlook, hbase, hd']
        rw [if_neg (by push_neg; exact hstop)]
        simp [hd']

/-- C4.  The delta chain starting at an entry yields that entry's
compressed payload first and then repeatedly steps to the effective
base revision, stopping when it reports −1 or equals the current revno;
in the general-delta scheme the effective base is −1 exactly when the
record's `base_rev` equals the entry's own revno and is the stored
`base_rev` unchanged otherwise.  The continuation and stop laws are the
second and third conjuncts; the last conjunct shows the walk is a
finite, fully defined sequence beginning with the entry itself whenever
`-1 ≤ base_rev ≤ revno` holds for every record. -/
theorem c4_delta_chain (rl : RevlogM) (revno base : Int) (fuel : Nat) (rec : RecordM) :
    (rl.generaldelta = true →
      entryBaseRev rl revno base = if base = revno then -1 else base) ∧
    (lookupRec rl revno = some rec →
      ¬ (entryBaseRev rl revno rec.base_rev = -1 ∨ entryBaseRev rl revno rec.base_rev = revno) →
      deltaChainFuel rl (fuel + 1) revno =
        (deltaChainFuel rl fuel (entryBaseRev rl revno rec.base_rev)).map
          (fun t => rec.payload :: t)) ∧
    (lookupRec rl revno = some rec →
      (entryBaseRev rl revno rec.base_rev = -1 ∨ entryBaseRev rl revno rec.base_rev = revno) →
      deltaChainFuel rl (fuel + 1) revno = some [rec.payload]) ∧
    ((∀ j : Fin rl.records.length,
        -1 ≤ (rl.records.get j).base_rev ∧ (rl.records.get j).base_rev ≤ (j : Int)) →
      0 ≤ revno → revno.toNat < rl.records.length →
      ∃ r l, lookupRec rl revno = some r ∧
        deltaChainFuel rl (revno.toNat + 1) revno = some (r.payload :: l)) := by
  refine ⟨?_, ?_, ?_, ?_⟩
  · intro hgd
    unfold entryBaseRev
    by_cases hb : base = revno
    · simp [hb, hgd]
    · simp [hb]
  · intro hlook hnostop
    simp [deltaChainFuel, hlook, hnostop]
  · intro hlook hstop
    simp [deltaChainFuel, hlook, hstop]
  · intro hwf h0 hlen
    exact deltaChain_total rl hwf (revno.toNat + 1) revno h0 (by omega) hlen

/-- Witness for C4 on the two-revision revlog `rlW`: every record obeys
the base-revision bounds, and the chain from revision 1 is defined and
starts with revision 1's payload. -/
theorem c4_delta_chain_witness :
    (∀ j : Fin rlW.records.length,
      -1 ≤ (rlW.records.get j).base_rev ∧ (rlW.records.get j).base_rev ≤ (j : Int)) ∧
    (∃ r l, lookupRec rlW 1 = some r ∧
      deltaChainFuel rlW 2 1 = some (r.payload :: l)) :=
  ⟨by decide,
   (c4_delta_chain rlW 1 0 1 { base_rev := 0, node_id := [], payload := [] }).2.2.2
     (by decide) (by decide) (by decide)⟩

/-- The interleaved loop of `apply` computes the same result as first
parsing the stream into hunks and then applying them: both fail on
exactly the same streams. -/
theorem applyStreamF_parse (buf : List Nat) :
    ∀ fuel last next p, Patch.applyStreamF buf fuel last next p =
      match Patch.parseHunksF fuel p with
      | none => none
      | some hs => Patch.applyParsed buf last next hs := by
  intro fuel
  induction fuel with
  | zero =>
      intro last next p
      rcases p with _ | ⟨b0, p⟩
      · rfl
      · rfl
  | succ n ih =>
      intro last next p
      rcases p with _ | ⟨b0, _ | ⟨b1, _ | ⟨b2, _ | ⟨b3, _ | ⟨b4, _ | ⟨b5, _ | ⟨b6, _ |
        ⟨b7, _ | ⟨b8, _ | ⟨b9, _ | ⟨b10, _ | ⟨b11, rest⟩⟩⟩⟩⟩⟩⟩⟩⟩⟩⟩⟩
      · rfl
      · rfl
      · rfl
      · rfl
      · rfl
      · rfl
      · rfl
      · rfl
      · rfl
      · rfl
      · rfl
      · rfl
      · simp only [Patch.applyStreamF, Patch.parseHunksF]
        by_cases hc : ((b8 * 256 + b9) * 256 + b10) * 256 + b11 ≤ rest.length
        · rw [if_pos hc, if_pos hc]
          by_cases hsl : last ≤ ((b0 * 256 + b1) * 256 + b2) * 256 + b3 ∧
              ((b0 * 256 + b1) * 256 + b2) * 256 + b3 ≤ buf.length
          · rw [if_pos hsl, ih]
            cases hp : Patch.parseHunksF n (rest.drop (((b8 * 256 + b9) * 256 + b10) * 256 + b11)) with
            | none => simp
            | some hs => simp [Patch.applyParsed, hsl]
          · rw [if_neg hsl]
            cases hp : Patch.parseHunksF n (rest.drop (((b8 * 256 + b9) * 256 + b10) * 256 + b11)) with
            | none => simp
            | some hs => simp [Patch.applyParsed, hsl]
        · rw [if_neg hc, if_neg hc]

/-- Length accounting for applying a parsed, well-formed hunk list: the
application succeeds and the output length is the input length kept so
far plus the tail of the buffer, minus the deleted ranges, plus the
inserted data. -/
theorem applyParsed_length (buf : List Nat) :
    ∀ hs (last : Nat) (next : List Nat), Patch.hunksWF buf.length last hs = true →
      ∃ out, Patch.applyParsed buf last next hs = some out ∧
        (out.length : Int) = next.length + buf.length - last + (Patch.sumIns hs - Patch.sumDel hs) := by
  intro hs
  induction hs with
  | nil =>
      intro last next hwf
      have hlast : last ≤ buf.length := by simpa [Patch.hunksWF] using hwf
      by_cases h : last = buf.length
      · refine ⟨next, by simp [Patch.applyParsed, h], ?_⟩
        simp [Patch.sumIns, Patch.sumDel, h]
      · refine ⟨next ++ buf.drop last, by simp [Patch.applyParsed, h, hlast], ?_⟩
        simp [Patch.sumIns, Patch.sumDel]
        omega
  | cons h hs ih =>
      intro last next hwf
      obtain ⟨a, b, piece⟩ := h
      have hwf' : (last ≤ a ∧ a ≤ b ∧ b ≤ buf.length) ∧
          Patch.hunksWF buf.length b hs = true := by
        simpa [Patch.hunksWF, and_assoc] using hwf
      obtain ⟨⟨h1, h2, h3⟩, h4⟩ := hwf'
      have hsl : last ≤ a ∧ a ≤ buf.length := ⟨h1, le_trans h2 h3⟩
      obtain ⟨out, hout, hlen⟩ := ih b (next ++ ((buf.take a).drop last) ++ piece) h4
      refine ⟨out, ?_, ?_⟩
      · simp only [Patch.applyParsed, if_pos hsl]
        simpa [List.append_assoc] using hout
      rw [hlen]
      have hkeep : ((buf.take a).drop last).length = a - last := by
        simp [List.length_take]
        omega
      simp only [List.length_append, hkeep, Patch.sumIns, Patch.sumDel, List.map_cons,
        List.sum_cons]
      push_cast
      have : (Patch.sumIns hs - Patch.sumDel hs) =
          ((hs.map (fun h => (h.2.2.length : Int))).sum - (hs.map (fun h => (h.2.1 : Int) - (h.1 : Int))).sum) := by
        simp [Patch.sumIns, Patch.sumDel]
      omega

/-- C6.  For a single patch stream that parses into hunks well-formed
for the buffer (monotone, non-overlapping, `a ≤ b`, `b ≤ len(S)`), the
application succeeds and
`len(apply(S, [P])) = len(S) − Σ(bᵢ − aᵢ) + Σ cᵢ`. -/
theorem c6_patch_length_law (S P : List Nat) (hs : List (Nat × Nat × List Nat))
    (hp : Patch.parseHunks P = some hs) (hwf : Patch.hunksWF S.length 0 hs = true) :
    ∃ out, Patch.apply S [P] = some out ∧
      (out.length : Int) = (S.length : Int) - Patch.sumDel hs + Patch.sumIns hs := by
  obtain ⟨out, hout, hlen⟩ := applyParsed_length S hs 0 [] hwf
  have hstream : Patch.applyStream S P = some out := by
    unfold Patch.applyStream
    rw [applyStreamF_parse]
    unfold Patch.parseHunks at hp
    rw [hp]
    exact hout
  refine ⟨out, by simp [Patch.apply, hstream], ?_⟩
  rw [hlen]
  simp only [List.length_nil, Nat.cast_zero]
  ring

/-- Witness for C6 at scenario S3: replacing "world" by "earth" in
"hello world" keeps the length at 11 = 11 − 5 + 5. -/
theorem c6_patch_length_law_witness :
    Patch.parseHunks (Patch.hunkBytes 6 11 [101, 97, 114, 116, 104]) =
      some [(6, 11, [101, 97, 114, 116, 104])] ∧
    Patch.hunksWF 11 0 [(6, 11, [101, 97, 114, 116, 104])] = true ∧
    ∃ out, Patch.apply [104, 101, 108, 108, 111, 32, 119, 111, 114, 108, 100]
        [Patch.hunkBytes 6 11 [101, 97, 114, 116, 104]] = some out ∧
      (out.length : Int) = (11 : Int) -
        Patch.sumDel [(6, 11, [101, 97, 114, 116, 104])] +
        Patch.sumIns [(6, 11, [101, 97, 114, 116, 104])] :=
  ⟨by decide, by decide,
   c6_patch_length_law [104, 101, 108, 108, 111, 32, 119, 111, 114, 108, 100]
     (Patch.hunkBytes 6 11 [101, 97, 114, 116, 104])
     [(6, 11, [101, 97, 114, 116, 104])] (by decide) (by decide)⟩

/-- A successful entry construction implies the `extract_value` bounds
on the record's byte offset. -/
theorem mkEntry_ok_bounds (ix : List Nat) (off : Int) (h : mkEntry ix off = EOut.ok) :
    0 ≤ off ∧ off + 64 ≤ (ix.length : Int) := by
  by_cases hb : 0 ≤ off ∧ off + 64 ≤ (ix.length : Int)
  · exact hb
  · simp only [mkEntry, if_pos hb] at h
    simp at h

/-- Soundness of the fuel-indexed scan: a successful scan is a clean
scan chain in the sense of `ScansTo`. -/
theorem scanFrom_ok_scansTo (ix : List Nat) :
    ∀ n off t, scanFrom ix n off = SOut.ok t → ScansTo ix off t := by
  intro n
  induction n with
  | zero => intro off t h; simp [scanFrom] at h
  | succ m ih =>
      intro off t h
      rw [scanFrom] at h
      rcases hme : mkEntry ix off with _ | _ | _ <;> rw [hme] at h
      · by_cases hstopc : off + 64 + compLenAt ix off = (ix.length : Int)
        · rw [if_pos hstopc] at h
          simp only [SOut.ok.injEq] at h
          subst h
          exact ScansTo.last off hme hstopc
        · rw [if_neg hstopc] at h
          rcases hs : scanFrom ix m (off + 64 + compLenAt ix off) with t' | _ | _ | _ <;>
            rw [hs] at h
          · have h2 : off :: t' = t := by simpa using h
            rw [← h2]
            exact ScansTo.step off t' hme hstopc (ih _ t' hs)
          · simp at h
          · simp at h
          · simp at h
      · simp at h
      · simp at h

/-- Completeness of the fuel-indexed scan: a clean scan chain of length
at most the fuel is found by the scan. -/
theorem scansTo_fuel (ix : List Nat) (off : Int) (t : List Int) (hs : ScansTo ix off t) :
    ∀ n, t.length ≤ n → scanFrom ix n off = SOut.ok t := by
  induction hs with
  | last off hok hland =>
      intro n hn
      rcases n with _ | m
      · simp at hn
      · rw [scanFrom, hok, if_pos hland]
  | step off t hok hland _ ih =>
      intro n hn
      rcases n with _ | m
      · simp at hn
      · rw [scanFrom, hok, if_neg hland, ih m (by simpa using hn)]

/-- The scan chain out of a given offset is unique. -/
theorem scansTo_det (ix : List Nat) (off : Int) (t t' : List Int)
    (h : ScansTo ix off t) (h' : ScansTo ix off t') : t = t' := by
  induction h generalizing t' with
  | last off hok hland =>
      cases h' with
      | last _ _ _ => rfl
      | step _ t₂ _ hland' _ => exact absurd hland hland'
  | step off t₁ hok hland hrec ih =>
      cases h' with
      | last _ _ hland' => exact absurd hland' hland
      | step _ t₂ _ _ hrec' => exact congrArg (off :: ·) (ih t₂ hrec')

/-- Every offset visited by a scan chain roots its own chain, one that
is no longer, and strictly shorter unless it is the starting offset. -/
theorem scansTo_suffix (ix : List Nat) (off : Int) (t : List Int) (h : ScansTo ix off t) :
    ∀ o ∈ t, ∃ s, ScansTo ix o s ∧ s.length ≤ t.length ∧ (o = off ∨ s.length < t.length) := by
  induction h with
  | last off hok hland =>
      intro o ho
      simp only [List.mem_singleton] at ho
      subst ho
      exact ⟨[o], ScansTo.last o hok hland, le_refl _, Or.inl rfl⟩
  | step off t₁ hok hland hrec ih =>
      intro o ho
      rcases List.mem_cons.mp ho with h1 | h2
      · subst h1
        exact ⟨o :: t₁, ScansTo.step o t₁ hok hland hrec, le_refl _, Or.inl rfl⟩
      · obtain ⟨s, hs1, hs2, _⟩ := ih o h2
        exact ⟨s, hs1, le_trans hs2 (by simp), Or.inr (by simp; omega)⟩

/-- A scan chain never revisits an offset. -/
theorem scansTo_nodup (ix : List Nat) (off : Int) (t : List Int) (h : ScansTo ix off t) :
    t.Nodup := by
  induction h with
  | last off _ _ => simp
  | step off t₁ hok hland hrec ih =>
      refine List.nodup_cons.mpr ⟨?_, ih⟩
      intro hmem
      obtain ⟨s, hs1, hs2, _⟩ := scansTo_suffix ix _ t₁ hrec off hmem
      have : s = off :: t₁ :=
        scansTo_det ix off s (off :: t₁) hs1 (ScansTo.step off t₁ hok hland hrec)
      rw [this] at hs2
      simp at hs2

/-- Every offset on a scan chain satisfies the record bounds. -/
theorem scansTo_mem_bounds (ix : List Nat) (off : Int) (t : List Int) (h : ScansTo ix off t) :
    ∀ o ∈ t, 0 ≤ o ∧ o + 64 ≤ (ix.length : Int) := by
  induction h with
  | last off hok _ =>
      intro o ho
      simp only [List.mem_singleton] at ho
      subst ho
      exact mkEntry_ok_bounds ix o hok
  | step off t₁ hok _ _ ih =>
      intro o ho
      rcases List.mem_cons.mp ho with h1 | h2
      · subst h1; exact mkEntry_ok_bounds ix o hok
      · exact ih o h2

/-- A scan chain has at most as many elements as the file has bytes:
its offsets are pairwise distinct naturals below the file length. -/
theorem scansTo_length_le (ix : List Nat) (off : Int) (t : List Int) (h : ScansTo ix off t) :
    t.length ≤ ix.length := by
  have hmap : (t.map Int.toNat).Nodup := by
    refine List.Nodup.map_on ?_ (scansTo_nodup ix off t h)
    intro x hx y hy hxy
    have hbx := (scansTo_mem_bounds ix off t h x hx).1
    have hby := (scansTo_mem_bounds ix off t h y hy).1
    omega
  have hsub : (t.map Int.toNat) ⊆ List.range ix.length := by
    intro x hx
    obtain ⟨o, ho, rfl⟩ := List.mem_map.mp hx
    have hb := scansTo_mem_bounds ix off t h o ho
    exact List.mem_range.mpr (by omega)
  have := (List.subperm_of_subset hmap hsub).length_le
  simpa using this

set_option maxRecDepth 40000 in
/-- C5, amended.  The open-time scan of an inline revlog terminates
successfully with jump table `t` exactly when, starting at offset 0,
every visited record constructs cleanly and each advance
`off + 64 + comp_len` either lands exactly on the index file length
(ending the scan) or starts the next record (`ScansTo`).  The second
conjunct checks the boundary scenario: the two-entry file whose final
advance is exactly `file_len` scans cleanly.  For the file one byte
shorter the scan aborts with a bounds-assertion panic rather than
returning an error — see the counterexample. -/
theorem c5_inline_scan_exact (ix : List Nat) (t : List Int) :
    (inlineScan ix = SOut.ok t ↔ ScansTo ix 0 t) ∧
    inlineScan goodInline = SOut.ok [0, 67] := by
  constructor
  · constructor
    · intro h
      exact scanFrom_ok_scansTo ix (ix.length + 1) 0 t h
    · intro h
      exact scansTo_fuel ix 0 t h (ix.length + 1)
        (le_trans (scansTo_length_le ix 0 t h) (by omega))
  · decide

set_option maxRecDepth 40000 in
/-- C5, counterexample.  The claim says an inline revlog whose file is
one byte too short for its final entry fails open with a fatal
`CorruptIndex` error.  On `goodInlineShort` (the clean 133-byte file
truncated to 132 bytes) the final entry's payload bound
67 + 64 + 2 = 133 exceeds the length, which violates the `assert!` in
`MappedData::extract_slice`: the process aborts with a panic — the
embedding's `SOut.panic`, a different outcome from a returned error
(`SOut.err`, which the `expect!` checks produce). -/
theorem c5_truncated_scan_counterexample :
    inlineScan goodInlineShort = SOut.panic ∧ SOut.panic ≠ SOut.err := by
  exact ⟨by decide, by decide⟩

/-- A scan chain starts at its starting offset. -/
theorem scansTo_head (ix : List Nat) (off : Int) (t : List Int) (h : ScansTo ix off t) :
    ∃ t', t = off :: t' := by
  cases h with
  | last _ _ _ => exact ⟨[], rfl⟩
  | step _ t₁ _ _ _ => exact ⟨t₁, rfl⟩

/-- Every offset on a scan chain constructs its entry without error. -/
theorem scansTo_all_ok (ix : List Nat) (off : Int) (t : List Int) (h : ScansTo ix off t) :
    ∀ o ∈ t, mkEntry ix o = EOut.ok := by
  induction h with
  | last off hok _ =>
      intro o ho
      simp only [List.mem_singleton] at ho
      subst ho
      exact hok
  | step off t₁ hok _ _ ih =>
      intro o ho
      rcases List.mem_cons.mp ho with h1 | h2
      · subst h1; exact hok
      · exact ih o h2

/-- Successive offsets of a scan chain differ by exactly
`64 + comp_len` of the earlier record. -/
theorem scansTo_chain_step (ix : List Nat) (off : Int) (t : List Int) (h : ScansTo ix off t) :
    List.Chain' (fun x y => y = x + 64 + compLenAt ix x) t := by
  induction h with
  | last off _ _ => simp
  | step off t₁ hok hland hrec ih =>
      obtain ⟨t₂, rfl⟩ := scansTo_head ix _ t₁ hrec
      exact List.chain'_cons.mpr ⟨rfl, ih⟩

/-- A step chain whose visited records all have nonnegative `comp_len`
is strictly increasing. -/
theorem chain_step_lt (ix : List Nat) :
    ∀ t, List.Chain' (fun x y => y = x + 64 + compLenAt ix x) t →
      (∀ o ∈ t, 0 ≤ compLenAt ix o) → List.Chain' (fun x y => x < y) t := by
  intro t
  induction t with
  | nil => intro _ _; simp
  | cons x t ih =>
      intro hch hc
      cases t with
      | nil => simp
      | cons y t' =>
          obtain ⟨hstep, hch'⟩ := List.chain'_cons.mp hch
          refine List.chain'_cons.mpr ⟨?_, ih hch' ?_⟩
          · have hx : 0 ≤ compLenAt ix x := hc x (by simp)
            omega
          · intro o ho
            exact hc o (List.mem_cons_of_mem x ho)

/-- On a strictly sorted table the binary-search model finds each
element at its own index. -/
theorem binarySearchModel_get (t : List Int) (hp : List.Pairwise (fun x y => x < y) t) :
    ∀ i, (hi : i < t.length) → binarySearchModel t (t.get ⟨i, hi⟩) = some i := by
  induction t with
  | nil => intro i hi; simp at hi
  | cons x t ih =>
      intro i hi
      obtain ⟨hx, hp'⟩ := List.pairwise_cons.mp hp
      cases i with
      | zero => simp [binarySearchModel]
      | succ j =>
          have hj : j < t.length := by simpa using hi
          have hne : ¬ x = t.get ⟨j, hj⟩ := by
            have := hx (t.get ⟨j, hj⟩) (t.get_mem j hj)
            omega
          simp only [binarySearchModel, List.get_cons_succ, if_neg hne, ih hp' j hj,
            Option.map_some']

set_option maxRecDepth 80000 in
/-- C10, counterexample.  The claim asserts the jump table of every
successfully opened inline revlog is strictly increasing.  On
`wildInline` the flag word has the NG and INLINE bits set and the scan
succeeds — `open()` succeeds — yet the table is `[0, 100, 64]`, which
is not strictly increasing (the record at offset 100 stores the
negative `comp_len` −100, sending the scan backwards). -/
theorem c10_jump_table_counterexample :
    inlineScan wildInline = SOut.ok [0, 100, 64] ∧
    revlogFlags wildInline &&& 1 ≠ 0 ∧
    revlogFlags wildInline &&& 65536 ≠ 0 ∧
    ¬ List.Chain' (fun x y => x < y) [(0 : Int), 100, 64] := by
  refine ⟨by decide, by decide, by decide, ?_⟩
  intro hch
  obtain ⟨-, hch2⟩ := List.chain'_cons.mp hch
  obtain ⟨hlt, -⟩ := List.chain'_cons.mp hch2
  omega

/-- C10, amended.  For an inline revlog whose open-time scan succeeds
with jump table `t` and whose visited records all store a nonnegative
`comp_len` (true of every real revlog), the table starts with offset 0
and is strictly increasing; `index(i)` succeeds for every
`i < len() = t.length` and returns the entry at byte offset `t[i]`
carrying revno `i`; and `revno_from_offset` inverts the table lookup:
`revno_from_offset(t[i]) = i`. -/
theorem c10_jump_table_invariants (ix : List Nat) (t : List Int)
    (h : inlineScan ix = SOut.ok t) (hc : ∀ o ∈ t, 0 ≤ compLenAt ix o) :
    t.head? = some 0 ∧
    List.Chain' (fun x y => x < y) t ∧
    (∀ i : Nat, i < t.length → indexM ix t (i : Int) = IOut.ok (t.getD i 0) (i : Int)) ∧
    (∀ i : Nat, i < t.length → revnoFromOffset t (t.getD i 0) = some (i : Int)) := by
  have hscan : ScansTo ix 0 t := scanFrom_ok_scansTo ix (ix.length + 1) 0 t h
  obtain ⟨t', rfl⟩ := scansTo_head ix 0 t hscan
  have hlt : List.Chain' (fun x y => x < y) (0 :: t') :=
    chain_step_lt ix (0 :: t') (scansTo_chain_step ix 0 (0 :: t') hscan) hc
  have hpw : List.Pairwise (fun x y => x < y) (0 :: t') :=
    List.chain'_iff_pairwise.mp hlt
  refine ⟨rfl, hlt, ?_, ?_⟩
  · intro i hi
    have hgd : (0 :: t').getD i 0 = (0 :: t').get ⟨i, hi⟩ := by
      simp [List.getD_eq_getElem?_getD, List.getElem?_eq_getElem hi, List.get_eq_getElem]
    have hok : mkEntry ix ((0 :: t').get ⟨i, hi⟩) = EOut.ok :=
      scansTo_all_ok ix 0 (0 :: t') hscan _ (List.get_mem _ i hi)
    have htn : ((i : Int)).toNat = i := by omega
    unfold indexM
    rw [if_neg (not_not_intro ⟨by omega, by omega⟩), htn, hgd, hok]
  · intro i hi
    have hgd : (0 :: t').getD i 0 = (0 :: t').get ⟨i, hi⟩ := by
      simp [List.getD_eq_getElem?_getD, List.getElem?_eq_getElem hi, List.get_eq_getElem]
    rw [hgd]
    unfold revnoFromOffset
    rw [binarySearchModel_get (0 :: t') hpw i hi]
    rfl

set_option maxRecDepth 80000 in
/-- Witness for C10 (amended) on the clean two-entry inline file: the
scan yields table `[0, 67]`, both records have nonnegative `comp_len`,
and the table invariants follow. -/
theorem c10_jump_table_invariants_witness :
    inlineScan goodInline = SOut.ok [0, 67] ∧
    (∀ o ∈ [(0 : Int), 67], 0 ≤ compLenAt goodInline o) ∧
    ([(0 : Int), 67].head? = some 0 ∧
      List.Chain' (fun x y => x < y) [(0 : Int), 67] ∧
      (∀ i : Nat, i < [(0 : Int), 67].length →
        indexM goodInline [(0 : Int), 67] (i : Int) =
          IOut.ok ([(0 : Int), 67].getD i 0) (i : Int)) ∧
      (∀ i : Nat, i < [(0 : Int), 67].length →
        revnoFromOffset [(0 : Int), 67] ([(0 : Int), 67].getD i 0) = some (i : Int))) :=
  ⟨by decide, by decide,
   c10_jump_table_invariants goodInline [(0 : Int), 67] (by decide) (by decide)⟩
